import Mathlib

/-!
# Verification of the Vics Agent core (agent loop, tool dispatch, sandboxing)

A shallow embedding, in Lean 4, of the core of the `vics_agent` Python
repository: the sandboxed file tools (`src/vics_agent/tools.py`), the tool
executor (`execute_tool`), and the agent loop (`src/vics_agent/agent.py`).
Python strings are modelled as `List Char` where byte/character-level facts
matter and as Lean `String` elsewhere; filesystem state is explicit; machine
interaction (the LLM provider, the regex engine, `json.loads`, `subprocess`)
is abstracted as oracle parameters.
-/

set_option maxHeartbeats 1600000

namespace VicsAgent

/-! ## Paths

An absolute filesystem path is a list of segments below the root.
`Path.resolve()` (with no symlinks present) is modelled as lexical
normalization of `.` and `..` on the absolute segment list.
-/

abbrev Seg := String

abbrev AbsPath := List Seg

/-- Splitting a path string on `/`, dropping empty segments; `cur` holds the
(reversed) characters of the segment being read. -/
def splitPathAux (cur : List Char) : List Char → List Seg
  | [] => if cur = [] then [] else [String.mk cur.reverse]
  | c :: rest =>
    if c = '/' then
      if cur = [] then splitPathAux [] rest
      else String.mk cur.reverse :: splitPathAux [] rest
    else splitPathAux (c :: cur) rest

/-- Splitting a caller-supplied path string on `/`, dropping empty segments
(this is how `pathlib` parses a relative or absolute path string). -/
def splitPath (p : String) : List Seg :=
  splitPathAux [] p.data

/-- The path string is absolute (starts with `/`). -/
def strIsAbs (p : String) : Bool :=
  match p.data with
  | '/' :: _ => true
  | _ => false

/-- `workspace / path` in `pathlib`: an absolute `path` replaces the
workspace; a relative one is appended. -/
def rawJoin (w : AbsPath) (p : String) : List Seg :=
  if strIsAbs p then splitPath p else w ++ splitPath p

/-- Lexical normalization performed by `Path.resolve()` in the absence of
symlinks: `.` is dropped, `..` removes the previous segment (and is a no-op
at the root). -/
def normalizeSegs (segs : List Seg) : AbsPath :=
  segs.foldl
    (fun acc s =>
      if s = "." then acc
      else if s = ".." then acc.dropLast
      else acc ++ [s])
    []

/-- `(workspace / path).resolve()` — the `target` computed by every file
tool in `tools.py`. -/
def resolveJoin (w : AbsPath) (p : String) : AbsPath :=
  normalizeSegs (rawJoin w p)

/-- `str(Path)` for an absolute path: `/` for the root, otherwise the
segments each preceded by `/`. Rendered as a character list. -/
def renderL (t : AbsPath) : List Char :=
  if t = [] then ['/'] else (t.map (fun s => '/' :: s.data)).flatten

/-- The sandbox check the source actually performs
(`str(target).startswith(str(workspace.resolve()))`, tools.py): a string
prefix test on the rendered absolute paths. -/
def sandboxOk (w t : AbsPath) : Bool :=
  (renderL w).isPrefixOf (renderL t)

/-- The specification's notion of being inside the sandbox: `target` is the
workspace itself or a descendant of it (segment-list prefix). -/
def isDescendant (w t : AbsPath) : Prop :=
  w <+: t

instance (w t : AbsPath) : Decidable (isDescendant w t) := by
  unfold isDescendant
  infer_instance

/-! ## Filesystem state

Files are an association list from absolute path to text content
(`List Char`); directories are a list of absolute paths.  Python-level
exceptions that can escape a tool body are the `PyError`s; a tool call
returns the new state plus either a result string (`.ok`) or a raised
exception (`.error`), which `execute_tool` later absorbs.
-/

inductive PyError where
  | isADirectoryError
  | notADirectoryError
  | fileExistsError
  deriving DecidableEq, Repr

abbrev ToolRes := Except PyError String

instance : DecidableEq ToolRes := fun a b =>
  match a, b with
  | .ok x, .ok y => decidable_of_iff (x = y) (by simp)
  | .ok _, .error _ => isFalse (by simp)
  | .error _, .ok _ => isFalse (by simp)
  | .error x, .error y => decidable_of_iff (x = y) (by simp)

def lookupA : List (AbsPath × List Char) → AbsPath → Option (List Char)
  | [], _ => none
  | (k, v) :: rest, t => if k = t then some v else lookupA rest t

/-- Store (insert or overwrite) a file entry. -/
def storeA : List (AbsPath × List Char) → AbsPath → List Char → List (AbsPath × List Char)
  | [], t, c => [(t, c)]
  | (k, v) :: rest, t, c => if k = t then (t, c) :: rest else (k, v) :: storeA rest t c

/-- Remove a file entry (`Path.unlink`). -/
def removeA : List (AbsPath × List Char) → AbsPath → List (AbsPath × List Char)
  | [], _ => []
  | (k, v) :: rest, t => if k = t then rest else (k, v) :: removeA rest t

structure FS where
  files : List (AbsPath × List Char)
  dirs : List AbsPath
  deriving DecidableEq, Repr

def FS.lookupFile (fs : FS) (t : AbsPath) : Option (List Char) :=
  lookupA fs.files t

def FS.isDir (fs : FS) (t : AbsPath) : Bool :=
  fs.dirs.contains t

/-- `Path.exists()`: true for a file or a directory. -/
def FS.pathExists (fs : FS) (t : AbsPath) : Bool :=
  (fs.lookupFile t).isSome || fs.isDir t

/-- The proper prefixes of a path: its parent directory chain
(`target.parent` and all ancestors), outermost first. -/
def ancestors (t : AbsPath) : List AbsPath :=
  (List.range t.length).map (fun n => t.take n)

def accessDeniedMsg : String := "Error: Access denied — path escapes workspace."

/-! ## File tools (tools.py) -/

/-- `read_file(workspace, path)` from tools.py: resolve, sandbox-check,
existence-check, then `read_text` (which raises `IsADirectoryError` on a
directory). -/
def read_file (fs : FS) (w : AbsPath) (p : String) : FS × ToolRes :=
  let t := resolveJoin w p
  if ¬ sandboxOk w t then (fs, .ok accessDeniedMsg)
  else if ¬ fs.pathExists t then (fs, .ok ("Error: File not found: " ++ p))
  else
    match fs.lookupFile t with
    | some c => (fs, .ok (String.mk c))
    | none => (fs, .error .isADirectoryError)

/-- `write_file(workspace, path, content)` from tools.py: resolve,
sandbox-check, `target.parent.mkdir(parents=True, exist_ok=True)` (which
raises when an ancestor exists as a regular file), then
`target.write_text(content)` (which raises `IsADirectoryError` when the
target is a directory) and report `len(content)` as the byte count. -/
def write_file (fs : FS) (w : AbsPath) (p : String) (content : List Char) : FS × ToolRes :=
  let t := resolveJoin w p
  if ¬ sandboxOk w t then (fs, .ok accessDeniedMsg)
  else if (lookupA fs.files t.dropLast).isSome then (fs, .error .fileExistsError)
  else if (ancestors t).any (fun a => (lookupA fs.files a).isSome) then
    (fs, .error .notADirectoryError)
  else
    let fs1 : FS := { fs with dirs := fs.dirs ++ (ancestors t).filter (fun a => ! fs.dirs.contains a) }
    if fs1.isDir t then (fs1, .error .isADirectoryError)
    else
      let n := content.length
      ({ fs1 with files := storeA fs1.files t content },
        .ok ("Successfully wrote " ++ toString n ++ " bytes to " ++ p))

/-- `delete_file(workspace, path)` from tools.py. -/
def delete_file (fs : FS) (w : AbsPath) (p : String) : FS × ToolRes :=
  let t := resolveJoin w p
  if ¬ sandboxOk w t then (fs, .ok accessDeniedMsg)
  else if ¬ fs.pathExists t then (fs, .ok ("Error: File not found: " ++ p))
  else if fs.isDir t then (fs, .ok "Error: Use run_command to remove directories.")
  else ({ fs with files := removeA fs.files t }, .ok ("Deleted " ++ p))

/-! ## Python string operations used by `edit_file`

`str.count(sub)` counts non-overlapping occurrences left to right (and
returns `len(s) + 1` for an empty needle); `str.replace(old, new, 1)`
replaces the leftmost occurrence (and prepends `new` for an empty needle).
The counting scan is written with an explicit length fuel so that it is
structurally recursive (hence kernel-evaluable).
-/

/-- Greedy left-to-right non-overlapping occurrence scan, fuelled by the
length of the haystack.  On a match at the head the scan resumes after the
matched block: for a nonempty needle `n`, the rest of `c :: hay` after the
match is `hay.drop (n.length - 1)`. -/
def countOccF (n : List Char) : Nat → List Char → Nat
  | 0, _ => 0
  | _ + 1, [] => 0
  | fuel + 1, c :: hay =>
    if n.isPrefixOf (c :: hay) then 1 + countOccF n fuel (hay.drop (n.length - 1))
    else countOccF n fuel hay

/-- Python `haystack.count(needle)`. -/
def countOcc (n hay : List Char) : Nat :=
  if n = [] then hay.length + 1 else countOccF n hay.length hay

/-- The scan of Python `haystack.replace(needle, repl, 1)` for a nonempty
needle: copy characters until the first occurrence, substitute, keep the
rest unchanged. -/
def replaceFirstAux (n r : List Char) : List Char → List Char
  | [] => []
  | c :: hay =>
    if n.isPrefixOf (c :: hay) then r ++ hay.drop (n.length - 1)
    else c :: replaceFirstAux n r hay

/-- Python `haystack.replace(needle, repl, 1)`. -/
def replaceFirst (n r hay : List Char) : List Char :=
  if n = [] then r ++ hay else replaceFirstAux n r hay

/-- `needle` occurs in `hay` starting at character index `i`. -/
def occursAt (n hay : List Char) (i : Nat) : Prop :=
  n <+: hay.drop i

/-- `edit_file(workspace, path, old_string, new_string)` from tools.py. -/
def edit_file (fs : FS) (w : AbsPath) (p : String) (oldS newS : List Char) : FS × ToolRes :=
  let t := resolveJoin w p
  if ¬ sandboxOk w t then (fs, .ok accessDeniedMsg)
  else if ¬ fs.pathExists t then (fs, .ok ("Error: File not found: " ++ p))
  else
    match fs.lookupFile t with
    | none => (fs, .error .isADirectoryError)
    | some content =>
      let count := countOcc oldS content
      if count = 0 then (fs, .ok "Error: old_string not found in file.")
      else if count > 1 then
        (fs, .ok ("Error: old_string found " ++ toString count ++
          " times — must be unique. Add more context."))
      else
        ({ fs with files := storeA fs.files t (replaceFirst oldS newS content) },
          .ok ("Successfully edited " ++ p))

/-! ## Tool executor (`execute_tool`, tools.py)

A registered capability is modelled as a function from the bound workspace
root and the keyword-argument map to `Except ToolFault String`: a normal
return is `.ok`, a raised Python exception is `.error` carrying the
exception's type name and message.  The registry is a lookup function
(Python `dict` access on `TOOL_REGISTRY`).

`TOOL_REGISTRY[name](workspace=workspace, **arguments)` is a CPython
keyword call: when `arguments` itself binds the key `"workspace"`, the call
expression raises `TypeError` (duplicate value for a keyword argument)
before the tool body runs; this happens inside the `try` block.
-/

inductive PyVal where
  | str (s : String)
  | int (n : Int)
  | bool (b : Bool)
  deriving DecidableEq, Repr

abbrev Args := List (String × PyVal)

structure ToolFault where
  kind : String
  msg : String
  deriving DecidableEq, Repr

abbrev ToolFn := AbsPath → Args → Except ToolFault String

abbrev Registry := String → Option ToolFn

def hasKey (args : Args) (k : String) : Bool :=
  args.any (fun e => e.1 = k)

def dupWorkspaceMsg : String := "got multiple values for keyword argument 'workspace'"

/-- The CPython call `fn(workspace=ws, **args)`. -/
def callKw (fn : ToolFn) (ws : AbsPath) (args : Args) : Except ToolFault String :=
  if hasKey args "workspace" then .error ⟨"TypeError", dupWorkspaceMsg⟩
  else fn ws args

/-- `execute_tool(name, arguments, workspace)` from tools.py. -/
def execute_tool (reg : Registry) (name : String) (args : Args) (ws : AbsPath) : String :=
  match reg name with
  | none => "Error: Unknown tool '" ++ name ++ "'"
  | some fn =>
    match callKw fn ws args with
    | .ok s => s
    | .error e => "Error executing " ++ name ++ ": " ++ e.kind ++ ": " ++ e.msg

/-! ## `run_command` (tools.py)

The subprocess itself is an oracle `exec : command → timeout → ExecOutcome`;
the denylist test and all output assembly are from the source.
-/

inductive ExecOutcome where
  | timedOut
  | completed (stdout stderr : String) (exitCode : Int)
  deriving DecidableEq, Repr

/-- The fixed denylist of destructive command patterns in `run_command`. -/
def blockedPatterns : List String :=
  ["rm -rf /", "format c:", "del /f /s /q c:", ":(){:|:&};:"]

def toLowerL (l : List Char) : List Char := l.map Char.toLower

/-- Substring containment (Python `in` on strings). -/
def containsSub (n : List Char) : List Char → Bool
  | [] => n.isPrefixOf []
  | c :: hay => n.isPrefixOf (c :: hay) || containsSub n (hay)

/-- Python whitespace test used by `str.strip()`. -/
def isPySpace (c : Char) : Bool :=
  c = ' ' || c = '\t' || c = '\n' || c = '\r' || c = '\x0b' || c = '\x0c'

/-- Python `str.strip()` on a character list. -/
def pyStripL (l : List Char) : List Char :=
  ((l.dropWhile isPySpace).reverse.dropWhile isPySpace).reverse

def pyStrip (s : String) : String := String.mk (pyStripL s.data)

def blockedCmdMsg : String := "Error: This command is blocked for safety."

/-- `command.lower()` contains one of the denylisted patterns. -/
def isBlockedCmd (cmd : String) : Bool :=
  blockedPatterns.any (fun b => containsSub b.data (toLowerL cmd.data))

/-- `run_command(workspace, command, timeout)` from tools.py (the
`workspace` only sets the subprocess working directory, which the oracle
absorbs). -/
def run_command (exec : String → Nat → ExecOutcome) (cmd : String) (tout : Nat) : String :=
  if isBlockedCmd cmd then blockedCmdMsg
  else
    match exec cmd tout with
    | .timedOut => "Error: Command timed out after " ++ toString tout ++ "s."
    | .completed out err code =>
      let o1 := if out ≠ "" then out else ""
      let o2 :=
        if err ≠ "" then (if o1 ≠ "" then o1 ++ "\n--- stderr ---\n" ++ err else o1 ++ err)
        else o1
      let o3 := if code ≠ 0 then o2 ++ "\n(exit code: " ++ toString code ++ ")" else o2
      let t := pyStrip o3
      if t = "" then "(no output)" else t

/-! ## `search_files` (tools.py)

The traversal `workspace.rglob(file_glob)` restricted to readable regular
files is modelled as an explicit list of entries `(rel, text)` — the path
relative to the workspace (as segments, `rel.parts`) and the decoded file
text; files whose `read_text` raises are absent from the list, matching the
silent `continue`.  The regex engine is an oracle
`compile : pattern → Option matcher`; `re.compile` failure is `none`, in
which case the source falls back to `re.compile(re.escape(pattern),
re.IGNORECASE)`, whose `search` on a line is case-insensitive literal
substring containment.
-/

abbrev SearchEntry := List Seg × List Char

/-- A segment starting with `.` (Python `part.startswith(".")`). -/
def segHidden (part : Seg) : Bool :=
  match part.data with
  | '.' :: _ => true
  | _ => false

/-- A path one of whose parts starts with `.` (the hidden-segment skip). -/
def hiddenRel (rel : List Seg) : Bool :=
  rel.any segHidden

/-- Case-insensitive literal containment: the fallback matcher for an
invalid regex pattern. -/
def litCI (pat : String) (line : List Char) : Bool :=
  containsSub (toLowerL pat.data) (toLowerL line)

/-- Select the line matcher: the compiled regex, or the escaped-literal
case-insensitive fallback when compilation fails. -/
def mkMatcher (compile : String → Option (List Char → Bool)) (pat : String) :
    List Char → Bool :=
  match compile pat with
  | some m => m
  | none => litCI pat

/-- Python `str.splitlines()` (line terminators `\r\n`, `\r`, `\n`; no
trailing empty line). -/
def splitLinesPy : List Char → List (List Char)
  | [] => []
  | '\r' :: '\n' :: rest => [] :: splitLinesPy rest
  | '\r' :: rest => [] :: splitLinesPy rest
  | '\n' :: rest => [] :: splitLinesPy rest
  | c :: rest =>
    match splitLinesPy rest with
    | [] => [[c]]
    | l :: ls => (c :: l) :: ls

/-- `str(rel)` for a relative path: segments joined by `/`. -/
def renderRel (rel : List Seg) : String :=
  String.intercalate "/" rel

/-- One result line: `f"{rel}:{i}: {line.strip()}"`. -/
def fmtMatch (rel : List Seg) (i : Nat) (line : List Char) : String :=
  renderRel rel ++ ":" ++ toString i ++ ": " ++ String.mk (pyStripL line)

def truncNotice : String := "... (truncated at 50 matches)"

/-- Scan the numbered lines of one file, appending formatted matches to the
accumulated results; at the 50th accumulated match append the truncation
notice and signal the early return. -/
def searchLines (rx : List Char → Bool) (rel : List Seg) :
    Nat → List (List Char) → List String → List String × Bool
  | _, [], acc => (acc, false)
  | i, l :: ls, acc =>
    if rx l then
      let acc' := acc ++ [fmtMatch rel i l]
      if 50 ≤ acc'.length then (acc' ++ [truncNotice], true)
      else searchLines rx rel (i + 1) ls acc'
    else searchLines rx rel (i + 1) ls acc

/-- Walk the traversal entries, skipping hidden paths, stopping at the
truncation signal. -/
def searchGo (rx : List Char → Bool) : List SearchEntry → List String → List String
  | [], acc => acc
  | (rel, text) :: rest, acc =>
    if hiddenRel rel then searchGo rx rest acc
    else
      match searchLines rx rel 1 (splitLinesPy text) acc with
      | (acc', true) => acc'
      | (acc', false) => searchGo rx rest acc'

def noMatchesMsg : String := "No matches found."

/-- `search_files(workspace, pattern, file_glob)` from tools.py, over the
traversal entries produced by `rglob`. -/
def search_files (compile : String → Option (List Char → Bool)) (pat : String)
    (entries : List SearchEntry) : String :=
  let rx := mkMatcher compile pat
  let results := searchGo rx entries []
  if results = [] then noMatchesMsg else String.intercalate "\n" results

/-! ## Agent loop (agent.py)

`Message` mirrors the dataclass in llm.py.  The provider is an oracle from
the current conversation to the assistant response `(content, tool_calls)`;
both provider adapters construct the returned message as
`Message(role="assistant", content=…, tool_calls=…)`.  `json.loads` of a
tool call's argument text is an oracle returning `none` on
`JSONDecodeError`, in which case the loop uses the empty argument map.
Console rendering (`rich`) has no effect on conversation state or the
returned value and is not modelled.
-/

structure ToolCall where
  id : String
  fname : String
  argumentsJSON : String
  deriving DecidableEq, Repr

structure Msg where
  role : String
  content : String
  tool_calls : List ToolCall
  tool_call_id : Option String
  name : Option String
  deriving DecidableEq, Repr

def SYSTEM_PROMPT : String :=
  "You are **Vics Agent**, an autonomous coding assistant created by Vics.\nYour tagline: \"Coding your day away.\"\n\nYou are an expert software engineer. You can read, write, edit, search files, and execute shell commands inside the user's workspace.\n\n## Guidelines\n- Break complex tasks into small, verifiable steps.\n- Always read existing files before editing them.\n- After writing code, run it or run tests to verify correctness.\n- Explain what you're doing briefly before each action.\n- If you're unsure, use the `think` tool to reason step by step.\n- Be concise and direct. Don't over-explain.\n- If a task is impossible or dangerous, say so and explain why.\n- When done, summarize what you accomplished.\n\n## Workspace\nAll file operations are relative to the workspace directory.\nThe user's workspace is ready for you to use.\n"

def systemMessage : Msg := ⟨"system", SYSTEM_PROMPT, [], none, none⟩

def userMessage (text : String) : Msg := ⟨"user", text, [], none, none⟩

def assistantMessage (content : String) (tcs : List ToolCall) : Msg :=
  ⟨"assistant", content, tcs, none, none⟩

def toolMessage (tc : ToolCall) (result : String) : Msg :=
  ⟨"tool", result, [], some tc.id, some tc.fname⟩

/-- The external collaborators of one `Agent.run`: the provider (llm.chat),
the JSON argument parser, the tool registry, and the resolved workspace. -/
structure RunEnv where
  oracle : List Msg → String × List ToolCall
  parse : String → Option Args
  reg : Registry
  ws : AbsPath

def maxIterationsMsg : String :=
  "Reached maximum iterations. Here's what I accomplished so far."

/-- `AgentConfig.max_iterations` default (config.py). -/
def defaultMaxIterations : Nat := 25

/-- The tool-result turns appended for one assistant turn's tool calls, in
request order. -/
def toolResults (env : RunEnv) (tcs : List ToolCall) : List Msg :=
  tcs.map (fun tc =>
    toolMessage tc (execute_tool env.reg tc.fname ((env.parse tc.argumentsJSON).getD []) env.ws))

/-- The `for iteration in range(1, max_iterations + 1)` body of
`Agent.run`, with the remaining iteration budget as fuel.  Returns the
final conversation, the returned string, and the list of provider
responses in call order. -/
def runLoop (env : RunEnv) : Nat → List Msg →
    List Msg × String × List (String × List ToolCall)
  | 0, msgs => (msgs, maxIterationsMsg, [])
  | fuel + 1, msgs =>
    let resp := env.oracle msgs
    let msgs1 := msgs ++ [assistantMessage resp.1 resp.2]
    if resp.2 = [] then (msgs1, resp.1, [resp])
    else
      let msgs2 := msgs1 ++ toolResults env resp.2
      let r := runLoop env fuel msgs2
      (r.1, r.2.1, resp :: r.2.2)

/-- `Agent.run(user_input)`: append the user turn, then loop up to
`max_iterations` provider calls. -/
def Agent.run (env : RunEnv) (maxIterations : Nat) (msgs : List Msg)
    (userInput : String) : List Msg × String × List (String × List ToolCall) :=
  runLoop env maxIterations (msgs ++ [userMessage userInput])

/-- The conversation at `Agent.__init__`. -/
def Agent.init : List Msg := [systemMessage]

/-- `Agent.reset()`: the conversation becomes the single system turn,
whatever it was before. -/
def Agent.reset (_msgs : List Msg) : List Msg := [systemMessage]

/-! ## UTF-8 encoded size

`write_text(content, encoding="utf-8")` stores the UTF-8 encoding of the
content; the byte length of one scalar value depends on its codepoint
range. -/

def charUtf8Len (c : Char) : Nat :=
  if c.toNat < 0x80 then 1
  else if c.toNat < 0x800 then 2
  else if c.toNat < 0x10000 then 3
  else 4

/-- The number of bytes of the UTF-8 encoding of a text. -/
def utf8Bytes (l : List Char) : Nat :=
  (l.map charUtf8Len).sum

/-- The shape of a conversation owned by the agent: a single system turn
first, and no other system turn. -/
def oneSystemHead (msgs : List Msg) : Prop :=
  ∃ rest, msgs = systemMessage :: rest ∧ ∀ m ∈ rest, m.role ≠ "system"

/-! ## Helper lemmas -/

theorem isPrefixOf_eq_true_iff (l₁ l₂ : List Char) :
    l₁.isPrefixOf l₂ = true ↔ l₁ <+: l₂ :=
  List.isPrefixOf_iff_prefix

theorem lookupA_storeA_self (l : List (AbsPath × List Char)) (t : AbsPath) (c : List Char) :
    lookupA (storeA l t c) t = some c := by
  induction l with
  | nil => simp [storeA, lookupA]
  | cons e rest ih =>
    by_cases h : e.1 = t
    · simp [storeA, lookupA, h]
    · simp [storeA, lookupA, h, ih]

theorem lookupA_storeA_ne (l : List (AbsPath × List Char)) (t t' : AbsPath) (c : List Char)
    (h : t' ≠ t) : lookupA (storeA l t c) t' = lookupA l t' := by
  have h' : t ≠ t' := Ne.symm h
  induction l with
  | nil => simp [storeA, lookupA, h']
  | cons e rest ih =>
    by_cases he : e.1 = t
    · simp [storeA, lookupA, he, h']
    · by_cases he' : e.1 = t'
      · simp [storeA, lookupA, he, he', h]
      · simp [storeA, lookupA, he, he', ih]

theorem renderL_mono (w t : AbsPath) (h : w <+: t) :
    renderL w <+: renderL t := by
  obtain ⟨rest, rfl⟩ := h
  rcases rest with _ | ⟨s, rest⟩
  · simp
  rcases w with _ | ⟨a, w⟩
  · refine ⟨(((s :: rest).map (fun s => '/' :: s.data)).flatten).tail, ?_⟩
    simp [renderL, List.map_cons, List.flatten_cons]
  · refine ⟨((s :: rest).map (fun s => '/' :: s.data)).flatten, ?_⟩
    simp [renderL, List.map_append, List.flatten_append]

/-- The specification's descendant relation implies the source's
string-prefix sandbox check. -/
theorem sandboxOk_of_descendant (w t : AbsPath) (h : isDescendant w t) :
    sandboxOk w t = true := by
  rw [sandboxOk, isPrefixOf_eq_true_iff]
  exact renderL_mono w t h

theorem mem_ancestors_length_lt (t : AbsPath) (a : AbsPath) (h : a ∈ ancestors t) :
    a.length < t.length := by
  simp only [ancestors, List.mem_map, List.mem_range] at h
  obtain ⟨n, hn, rfl⟩ := h
  simpa [List.length_take] using hn

theorem mem_ancestors_ne (t : AbsPath) (a : AbsPath) (h : a ∈ ancestors t) : a ≠ t := by
  intro heq
  exact (mem_ancestors_length_lt t a h).ne (by rw [heq])

theorem exists_occursAt_of_countOccF_ne_zero (n : List Char) :
    ∀ fuel hay, hay.length ≤ fuel → countOccF n fuel hay ≠ 0 →
      ∃ i, n <+: hay.drop i := by
  intro fuel
  induction fuel with
  | zero =>
    intro hay _ hne
    simp [countOccF] at hne
  | succ fuel ih =>
    intro hay hlen hne
    match hay with
    | [] => simp [countOccF] at hne
    | c :: rest =>
      by_cases hp : n.isPrefixOf (c :: rest)
      · exact ⟨0, by simpa using isPrefixOf_eq_true_iff _ _ |>.mp hp⟩
      · have hne' : countOccF n fuel rest ≠ 0 := by
          simpa [countOccF, hp] using hne
        have hlen' : rest.length ≤ fuel := by
          simpa using Nat.lt_succ_iff.mp (Nat.lt_of_lt_of_le (by simp) hlen)
        obtain ⟨i, hi⟩ := ih rest hlen' hne'
        exact ⟨i + 1, by simpa [List.drop_succ_cons] using hi⟩

theorem no_occursAt_of_countOccF_eq_zero (n : List Char) (hn : n ≠ []) :
    ∀ fuel hay, hay.length ≤ fuel → countOccF n fuel hay = 0 →
      ∀ i, ¬ n <+: hay.drop i := by
  intro fuel
  induction fuel with
  | zero =>
    intro hay hlen _ i hocc
    have : hay = [] := List.length_eq_zero.mp (Nat.le_zero.mp hlen)
    subst this
    exact hn (List.prefix_nil.mp (by simpa using hocc))
  | succ fuel ih =>
    intro hay hlen h0 i hocc
    match hay with
    | [] => exact hn (List.prefix_nil.mp (by simpa using hocc))
    | c :: rest =>
      by_cases hp : n.isPrefixOf (c :: rest)
      · simp [countOccF, hp] at h0
      · have h0' : countOccF n fuel rest = 0 := by simpa [countOccF, hp] using h0
        have hlen' : rest.length ≤ fuel := by
          simpa using Nat.lt_succ_iff.mp (Nat.lt_of_lt_of_le (by simp) hlen)
        cases i with
        | zero => exact hp (isPrefixOf_eq_true_iff _ _ |>.mpr (by simpa using hocc))
        | succ i => exact ih rest hlen' h0' i (by simpa [List.drop_succ_cons] using hocc)

theorem replaceFirstAux_spec (n r : List Char) (hn : n ≠ []) (hay : List Char) :
    (∃ i, n <+: hay.drop i) →
      ∃ i, n <+: hay.drop i ∧ (∀ j < i, ¬ n <+: hay.drop j) ∧
        replaceFirstAux n r hay = hay.take i ++ r ++ hay.drop (i + n.length) := by
  induction hay with
  | nil =>
    rintro ⟨i, hi⟩
    exact absurd (List.prefix_nil.mp (by simpa using hi)) hn
  | cons c rest ih =>
    rintro ⟨i, hi⟩
    by_cases hp : n.isPrefixOf (c :: rest)
    · refine ⟨0, by simpa using isPrefixOf_eq_true_iff _ _ |>.mp hp, by omega, ?_⟩
      obtain ⟨a, as, rfl⟩ : ∃ a as, n = a :: as := by
        cases n with
        | nil => exact absurd rfl hn
        | cons a as => exact ⟨a, as, rfl⟩
      simp [replaceFirstAux, hp, List.drop_succ_cons]
    · have hex' : ∃ i', n <+: rest.drop i' := by
        cases i with
        | zero => exact absurd (isPrefixOf_eq_true_iff _ _ |>.mpr (by simpa using hi)) hp
        | succ i => exact ⟨i, by simpa [List.drop_succ_cons] using hi⟩
      obtain ⟨i', h1, h2, h3⟩ := ih hex'
      refine ⟨i' + 1, by simpa [List.drop_succ_cons] using h1, ?_, ?_⟩
      · intro j hj
        cases j with
        | zero =>
          intro hcon
          exact hp (isPrefixOf_eq_true_iff _ _ |>.mpr (by simpa using hcon))
        | succ j =>
          have := h2 j (by omega)
          simpa [List.drop_succ_cons] using this
      · have hdrop : (c :: rest).drop (i' + 1 + n.length) = rest.drop (i' + n.length) := by
          have : i' + 1 + n.length = (i' + n.length) + 1 := by omega
          rw [this, List.drop_succ_cons]
        simp [replaceFirstAux, hp, h3, List.take_succ_cons, hdrop]

/-- For a nonempty needle with at least one occurrence, `replaceFirst`
splices the replacement at the first occurrence and keeps everything else
byte-identical. -/
theorem replaceFirst_spec (n r hay : List Char) (hn : n ≠ [])
    (hex : ∃ i, occursAt n hay i) :
    ∃ i, occursAt n hay i ∧ (∀ j < i, ¬ occursAt n hay j) ∧
      replaceFirst n r hay = hay.take i ++ r ++ hay.drop (i + n.length) := by
  have := replaceFirstAux_spec n r hn hay hex
  simpa [occursAt, replaceFirst, hn] using this

theorem exists_occursAt_of_countOcc_ne_zero (n hay : List Char) (hn : n ≠ [])
    (h : countOcc n hay ≠ 0) : ∃ i, occursAt n hay i :=
  exists_occursAt_of_countOccF_ne_zero n hay.length hay (Nat.le_refl _)
    (by simpa [countOcc, hn] using h)

theorem no_occursAt_of_countOcc_eq_zero (n hay : List Char) (hn : n ≠ [])
    (h : countOcc n hay = 0) : ∀ i, ¬ occursAt n hay i :=
  no_occursAt_of_countOccF_eq_zero n hn hay.length hay (Nat.le_refl _)
    (by simpa [countOcc, hn] using h)

/-- Run-loop analysis: either the iteration budget is exhausted with every
provider response carrying tool calls and the fixed ceiling message
returned, or the responses are a block of tool-calling responses followed
by one with no tool calls, whose content is returned. -/
theorem runLoop_resps_spec (env : RunEnv) :
    ∀ fuel msgs,
      ((runLoop env fuel msgs).2.2.length = fuel ∧
        (∀ resp ∈ (runLoop env fuel msgs).2.2, resp.2 ≠ ([] : List ToolCall)) ∧
        (runLoop env fuel msgs).2.1 = maxIterationsMsg)
      ∨ (∃ rs c, (runLoop env fuel msgs).2.2 = rs ++ [(c, ([] : List ToolCall))] ∧
          (∀ resp ∈ rs, resp.2 ≠ ([] : List ToolCall)) ∧
          (runLoop env fuel msgs).2.1 = c ∧
          (runLoop env fuel msgs).2.2.length ≤ fuel) := by
  intro fuel
  induction fuel with
  | zero => intro msgs; left; simp [runLoop]
  | succ fuel ih =>
    intro msgs
    by_cases h : (env.oracle msgs).2 = []
    · right
      refine ⟨[], (env.oracle msgs).1, ?_, by simp, ?_, ?_⟩
      · simp [runLoop, h, Prod.ext_iff]
      · simp [runLoop, h]
      · simp [runLoop, h]
    · rcases ih (msgs ++ [assistantMessage (env.oracle msgs).1 (env.oracle msgs).2] ++
        toolResults env (env.oracle msgs).2) with ⟨hlen, hall, hout⟩ | ⟨rs, c, heq, hall, hout, hlen⟩
      · left
        refine ⟨?_, ?_, ?_⟩
        · simp only [runLoop, h, if_false, if_neg h]
          simpa [List.append_assoc] using hlen
        · intro resp hresp
          simp only [runLoop, if_neg h, List.mem_cons] at hresp
          rcases hresp with rfl | hresp
          · exact h
          · exact hall resp (by simpa [List.append_assoc] using hresp)
        · simp only [runLoop, if_neg h]
          simpa [List.append_assoc] using hout
      · right
        refine ⟨env.oracle msgs :: rs, c, ?_, ?_, ?_, ?_⟩
        · simp only [runLoop, if_neg h]
          simpa [List.append_assoc] using congrArg (env.oracle msgs :: ·) heq
        · intro resp hresp
          rcases List.mem_cons.mp hresp with rfl | hresp
          · exact h
          · exact hall resp hresp
        · simp only [runLoop, if_neg h]
          simpa [List.append_assoc] using hout
        · simp only [runLoop, if_neg h]
          have := hlen
          simp only [List.length_cons]
          omega

/-- Every step of the loop only appends turns, and appends only
assistant-role and tool-role turns. -/
theorem runLoop_msgs_append (env : RunEnv) :
    ∀ fuel msgs, ∃ suffix, (runLoop env fuel msgs).1 = msgs ++ suffix ∧
      ∀ m ∈ suffix, m.role = "assistant" ∨ m.role = "tool" := by
  intro fuel
  induction fuel with
  | zero => intro msgs; exact ⟨[], by simp [runLoop], by simp⟩
  | succ fuel ih =>
    intro msgs
    by_cases h : (env.oracle msgs).2 = []
    · refine ⟨[assistantMessage (env.oracle msgs).1 (env.oracle msgs).2], ?_, ?_⟩
      · simp [runLoop, h]
      · intro m hm
        simp only [List.mem_singleton] at hm
        subst hm
        left
        rfl
    · obtain ⟨suf, hsuf, hroles⟩ := ih (msgs ++
        [assistantMessage (env.oracle msgs).1 (env.oracle msgs).2] ++
        toolResults env (env.oracle msgs).2)
      refine ⟨[assistantMessage (env.oracle msgs).1 (env.oracle msgs).2] ++
        toolResults env (env.oracle msgs).2 ++ suf, ?_, ?_⟩
      · simp only [runLoop, if_neg h]
        simpa [List.append_assoc] using hsuf
      · intro m hm
        simp only [List.append_assoc, List.mem_append, List.mem_singleton] at hm
        rcases hm with rfl | hm | hm
        · left; rfl
        · right
          simp only [toolResults, List.mem_map] at hm
          obtain ⟨tc, _, rfl⟩ := hm
          rfl
        · exact hroles m hm

/-- One step of the line scan, for each outcome of the two tests. -/
theorem searchLines_cons_match_stop (rx : List Char → Bool) (rel : List Seg)
    (i : Nat) (l : List Char) (ls : List (List Char)) (acc : List String)
    (hrx : rx l = true) (h50 : 50 ≤ (acc ++ [fmtMatch rel i l]).length) :
    searchLines rx rel i (l :: ls) acc =
      (acc ++ [fmtMatch rel i l] ++ [truncNotice], true) := by
  show (if rx l = true then
          if 50 ≤ (acc ++ [fmtMatch rel i l]).length then
            (acc ++ [fmtMatch rel i l] ++ [truncNotice], true)
          else searchLines rx rel (i + 1) ls (acc ++ [fmtMatch rel i l])
        else searchLines rx rel (i + 1) ls acc) = _
  rw [if_pos hrx, if_pos h50]

theorem searchLines_cons_match_go (rx : List Char → Bool) (rel : List Seg)
    (i : Nat) (l : List Char) (ls : List (List Char)) (acc : List String)
    (hrx : rx l = true) (h50 : ¬ 50 ≤ (acc ++ [fmtMatch rel i l]).length) :
    searchLines rx rel i (l :: ls) acc =
      searchLines rx rel (i + 1) ls (acc ++ [fmtMatch rel i l]) := by
  show (if rx l = true then
          if 50 ≤ (acc ++ [fmtMatch rel i l]).length then
            (acc ++ [fmtMatch rel i l] ++ [truncNotice], true)
          else searchLines rx rel (i + 1) ls (acc ++ [fmtMatch rel i l])
        else searchLines rx rel (i + 1) ls acc) = _
  rw [if_pos hrx, if_neg h50]

theorem searchLines_cons_nomatch (rx : List Char → Bool) (rel : List Seg)
    (i : Nat) (l : List Char) (ls : List (List Char)) (acc : List String)
    (hrx : ¬ rx l = true) :
    searchLines rx rel i (l :: ls) acc = searchLines rx rel (i + 1) ls acc := by
  show (if rx l = true then
          if 50 ≤ (acc ++ [fmtMatch rel i l]).length then
            (acc ++ [fmtMatch rel i l] ++ [truncNotice], true)
          else searchLines rx rel (i + 1) ls (acc ++ [fmtMatch rel i l])
        else searchLines rx rel (i + 1) ls acc) = _
  rw [if_neg hrx]

/-- Line-scan analysis: starting from fewer than 50 accumulated results,
the scan either finishes without truncating, having appended only
formatted matching lines and still holding at most 49 results, or stops at
exactly 50 results plus the truncation notice. -/
theorem searchLines_spec (rx : List Char → Bool) (rel : List Seg) :
    ∀ ls i acc, acc.length ≤ 49 →
      ((searchLines rx rel i ls acc).2 = false →
        ∃ ms, (searchLines rx rel i ls acc).1 = acc ++ ms ∧
          (searchLines rx rel i ls acc).1.length ≤ 49 ∧
          ∀ m ∈ ms, ∃ j l, ls[j]? = some l ∧ rx l = true ∧ m = fmtMatch rel (i + j) l)
      ∧ ((searchLines rx rel i ls acc).2 = true →
        ∃ ms, (searchLines rx rel i ls acc).1 = acc ++ ms ++ [truncNotice] ∧
          (acc ++ ms).length = 50 ∧
          ∀ m ∈ ms, ∃ j l, ls[j]? = some l ∧ rx l = true ∧ m = fmtMatch rel (i + j) l) := by
  intro ls
  induction ls with
  | nil =>
    intro i acc hacc
    constructor
    · intro _
      exact ⟨[], by simp [searchLines], by simpa [searchLines] using hacc, by simp⟩
    · intro hcon
      simp [searchLines] at hcon
  | cons l ls ih =>
    intro i acc hacc
    by_cases hrx : rx l = true
    · by_cases h50 : 50 ≤ (acc ++ [fmtMatch rel i l]).length
      · have hstep := searchLines_cons_match_stop rx rel i l ls acc hrx h50
        constructor
        · intro hcon
          rw [hstep] at hcon
          simp at hcon
        · intro _
          refine ⟨[fmtMatch rel i l], by rw [hstep], ?_, ?_⟩
          · simp only [List.length_append, List.length_cons, List.length_nil] at h50 hacc ⊢
            omega
          · intro m hm
            simp only [List.mem_singleton] at hm
            subst hm
            exact ⟨0, l, by simp, hrx, by simp⟩
      · have hacc' : (acc ++ [fmtMatch rel i l]).length ≤ 49 := by
          simp only [List.length_append, List.length_cons, List.length_nil] at h50 ⊢
          omega
        have hstep := searchLines_cons_match_go rx rel i l ls acc hrx h50
        have ihr := ih (i + 1) (acc ++ [fmtMatch rel i l]) hacc'
        constructor
        · intro hfalse
          rw [hstep] at hfalse
          obtain ⟨ms, h1, h2, h3⟩ := ihr.1 hfalse
          refine ⟨fmtMatch rel i l :: ms, ?_, by rw [hstep]; exact h2, ?_⟩
          · rw [hstep, h1]
            simp [List.append_assoc]
          · intro m hm
            rcases List.mem_cons.mp hm with rfl | hm
            · exact ⟨0, l, by simp, hrx, by simp⟩
            · obtain ⟨j, l', hj, hrxl, rfl⟩ := h3 m hm
              refine ⟨j + 1, l', by simpa using hj, hrxl, ?_⟩
              have harith : i + 1 + j = i + (j + 1) := by omega
              rw [harith]
        · intro htrue
          rw [hstep] at htrue
          obtain ⟨ms, h1, h2, h3⟩ := ihr.2 htrue
          refine ⟨fmtMatch rel i l :: ms, ?_, ?_, ?_⟩
          · rw [hstep, h1]
            simp [List.append_assoc]
          · simp only [List.length_append, List.length_cons, List.length_nil] at h2 ⊢
            omega
          · intro m hm
            rcases List.mem_cons.mp hm with rfl | hm
            · exact ⟨0, l, by simp, hrx, by simp⟩
            · obtain ⟨j, l', hj, hrxl, rfl⟩ := h3 m hm
              refine ⟨j + 1, l', by simpa using hj, hrxl, ?_⟩
              have harith : i + 1 + j = i + (j + 1) := by omega
              rw [harith]
    · have hstep := searchLines_cons_nomatch rx rel i l ls acc hrx
      have ihr := ih (i + 1) acc hacc
      constructor
      · intro hfalse
        rw [hstep] at hfalse
        obtain ⟨ms, h1, h2, h3⟩ := ihr.1 hfalse
        refine ⟨ms, by rw [hstep]; exact h1, by rw [hstep]; exact h2, ?_⟩
        intro m hm
        obtain ⟨j, l', hj, hrxl, rfl⟩ := h3 m hm
        refine ⟨j + 1, l', by simpa using hj, hrxl, ?_⟩
        have harith : i + 1 + j = i + (j + 1) := by omega
        rw [harith]
      · intro htrue
        rw [hstep] at htrue
        obtain ⟨ms, h1, h2, h3⟩ := ihr.2 htrue
        refine ⟨ms, by rw [hstep]; exact h1, h2, ?_⟩
        intro m hm
        obtain ⟨j, l', hj, hrxl, rfl⟩ := h3 m hm
        refine ⟨j + 1, l', by simpa using hj, hrxl, ?_⟩
        have harith : i + 1 + j = i + (j + 1) := by omega
        rw [harith]

theorem searchGo_cons_hidden (rx : List Char → Bool) (rel : List Seg) (text : List Char)
    (rest : List SearchEntry) (acc : List String) (h : hiddenRel rel = true) :
    searchGo rx ((rel, text) :: rest) acc = searchGo rx rest acc := by
  show (if hiddenRel rel = true then searchGo rx rest acc
        else match searchLines rx rel 1 (splitLinesPy text) acc with
          | (acc', true) => acc'
          | (acc', false) => searchGo rx rest acc') = _
  rw [if_pos h]

theorem searchGo_cons_stop (rx : List Char → Bool) (rel : List Seg) (text : List Char)
    (rest : List SearchEntry) (acc acc' : List String) (h : hiddenRel rel = false)
    (hsl : searchLines rx rel 1 (splitLinesPy text) acc = (acc', true)) :
    searchGo rx ((rel, text) :: rest) acc = acc' := by
  show (if hiddenRel rel = true then searchGo rx rest acc
        else match searchLines rx rel 1 (splitLinesPy text) acc with
          | (a, true) => a
          | (a, false) => searchGo rx rest a) = _
  rw [if_neg (by simp [h]), hsl]

theorem searchGo_cons_go (rx : List Char → Bool) (rel : List Seg) (text : List Char)
    (rest : List SearchEntry) (acc acc' : List String) (h : hiddenRel rel = false)
    (hsl : searchLines rx rel 1 (splitLinesPy text) acc = (acc', false)) :
    searchGo rx ((rel, text) :: rest) acc = searchGo rx rest acc' := by
  show (if hiddenRel rel = true then searchGo rx rest acc
        else match searchLines rx rel 1 (splitLinesPy text) acc with
          | (a, true) => a
          | (a, false) => searchGo rx rest a) = _
  rw [if_neg (by simp [h]), hsl]

/-- No line of any (visible) file matches: the scan of one file appends
nothing and signals no truncation. -/
theorem searchLines_no_match (rx : List Char → Bool) (rel : List Seg) :
    ∀ ls i acc, (∀ l ∈ ls, rx l = false) →
      searchLines rx rel i ls acc = (acc, false) := by
  intro ls
  induction ls with
  | nil => intro i acc _; rfl
  | cons l ls ih =>
    intro i acc h
    have hl : rx l = false := h l (List.mem_cons_self l ls)
    rw [searchLines_cons_nomatch rx rel i l ls acc (by simp [hl])]
    exact ih (i + 1) acc (fun l' hl' => h l' (List.mem_cons_of_mem l hl'))

/-- Dropping the hidden-path entries from the traversal does not change the
search result: hidden paths never contribute. -/
theorem searchGo_skips_hidden (rx : List Char → Bool) :
    ∀ entries acc,
      searchGo rx (entries.filter (fun e => ! hiddenRel e.1)) acc = searchGo rx entries acc := by
  intro entries
  induction entries with
  | nil => intro acc; rfl
  | cons e rest ih =>
    intro acc
    obtain ⟨rel, text⟩ := e
    by_cases hh : hiddenRel rel = true
    · have hfil : ((rel, text) :: rest).filter (fun e => ! hiddenRel e.1) =
          rest.filter (fun e => ! hiddenRel e.1) := by
        simp [List.filter_cons, hh]
      rw [hfil, searchGo_cons_hidden rx rel text rest acc hh]
      exact ih acc
    · have hh' : hiddenRel rel = false := by simpa using hh
      have hfil : ((rel, text) :: rest).filter (fun e => ! hiddenRel e.1) =
          (rel, text) :: rest.filter (fun e => ! hiddenRel e.1) := by
        simp [List.filter_cons, hh']
      rw [hfil]
      rcases hsl : searchLines rx rel 1 (splitLinesPy text) acc with ⟨acc', b⟩
      cases b
      · rw [searchGo_cons_go rx rel text (rest.filter (fun e => ! hiddenRel e.1)) acc acc' hh' hsl,
          searchGo_cons_go rx rel text rest acc acc' hh' hsl]
        exact ih acc'
      · rw [searchGo_cons_stop rx rel text (rest.filter (fun e => ! hiddenRel e.1)) acc acc' hh' hsl,
          searchGo_cons_stop rx rel text rest acc acc' hh' hsl]

/-- When no visible file has a matching line, the walk leaves the
accumulator untouched. -/
theorem searchGo_no_match (rx : List Char → Bool) :
    ∀ entries acc,
      (∀ e ∈ entries, hiddenRel e.1 = false → ∀ l ∈ splitLinesPy e.2, rx l = false) →
      searchGo rx entries acc = acc := by
  intro entries
  induction entries with
  | nil => intro acc _; rfl
  | cons e rest ih =>
    intro acc h
    obtain ⟨rel, text⟩ := e
    by_cases hh : hiddenRel rel = true
    · rw [searchGo_cons_hidden rx rel text rest acc hh]
      exact ih acc (fun e' he' => h e' (List.mem_cons_of_mem _ he'))
    · have hh' : hiddenRel rel = false := by simpa using hh
      have hsl := searchLines_no_match rx rel (splitLinesPy text) 1 acc
        (h (rel, text) (List.mem_cons_self _ _) hh')
      rw [searchGo_cons_go rx rel text rest acc acc hh' hsl]
      exact ih acc (fun e' he' => h e' (List.mem_cons_of_mem _ he'))

/-- Walk analysis: the result extends the accumulator with formatted
matching lines from visible entries only, either staying below 50 results
or stopping at exactly 50 plus the truncation notice. -/
theorem searchGo_spec (rx : List Char → Bool) :
    ∀ entries acc, acc.length ≤ 49 →
      ∃ ms, ((searchGo rx entries acc = acc ++ ms ∧ (acc ++ ms).length ≤ 49)
          ∨ (searchGo rx entries acc = acc ++ ms ++ [truncNotice] ∧ (acc ++ ms).length = 50))
        ∧ ∀ m ∈ ms, ∃ e ∈ entries, hiddenRel e.1 = false ∧
            ∃ i l, (splitLinesPy e.2)[i - 1]? = some l ∧ rx l = true ∧ m = fmtMatch e.1 i l := by
  intro entries
  induction entries with
  | nil =>
    intro acc hacc
    exact ⟨[], Or.inl ⟨by simp [searchGo], by simpa using hacc⟩, by simp⟩
  | cons e rest ih =>
    intro acc hacc
    obtain ⟨rel, text⟩ := e
    by_cases hh : hiddenRel rel = true
    · obtain ⟨ms, hcase, hmem⟩ := ih acc hacc
      rw [← searchGo_cons_hidden rx rel text rest acc hh] at hcase
      refine ⟨ms, hcase, ?_⟩
      intro m hm
      obtain ⟨e', he', hrest⟩ := hmem m hm
      exact ⟨e', List.mem_cons_of_mem _ he', hrest⟩
    · have hh' : hiddenRel rel = false := by simpa using hh
      have hsl := searchLines_spec rx rel (splitLinesPy text) 1 acc hacc
      rcases hslv : searchLines rx rel 1 (splitLinesPy text) acc with ⟨acc', b⟩
      rw [hslv] at hsl
      cases b
      · obtain ⟨ms₁, h1, h2, h3⟩ := hsl.1 rfl
        simp only at h1 h2
        obtain ⟨ms₂, hcase, hmem⟩ := ih acc' h2
        have hgo : searchGo rx ((rel, text) :: rest) acc = searchGo rx rest acc' :=
          searchGo_cons_go rx rel text rest acc acc' hh' hslv
        refine ⟨ms₁ ++ ms₂, ?_, ?_⟩
        · rcases hcase with ⟨hg, hlen⟩ | ⟨hg, hlen⟩
          · left
            constructor
            · rw [hgo, hg, h1]
              simp [List.append_assoc]
            · rw [h1] at hlen
              simpa [List.append_assoc] using hlen
          · right
            constructor
            · rw [hgo, hg, h1]
              simp [List.append_assoc]
            · rw [h1] at hlen
              simpa [List.append_assoc] using hlen
        · intro m hm
          rcases List.mem_append.mp hm with hm | hm
          · obtain ⟨j, l, hj, hrxl, rfl⟩ := h3 m hm
            refine ⟨(rel, text), List.mem_cons_self _ _, hh', 1 + j, l, ?_, hrxl, rfl⟩
            have harith : 1 + j - 1 = j := by omega
            rw [harith]
            exact hj
          · obtain ⟨e', he', hrest⟩ := hmem m hm
            exact ⟨e', List.mem_cons_of_mem _ he', hrest⟩
      · obtain ⟨ms₁, h1, h2, h3⟩ := hsl.2 rfl
        simp only at h1 h2
        rw [searchGo_cons_stop rx rel text rest acc acc' hh' hslv]
        refine ⟨ms₁, Or.inr ⟨h1, h2⟩, ?_⟩
        intro m hm
        obtain ⟨j, l, hj, hrxl, rfl⟩ := h3 m hm
        refine ⟨(rel, text), List.mem_cons_self _ _, hh', 1 + j, l, ?_, hrxl, rfl⟩
        have harith : 1 + j - 1 = j := by omega
        rw [harith]
        exact hj

/-! ## Claim theorems -/

/-- C1: the claim demands an `AccessDenied` result and no mutation for every
path whose resolution is neither the workspace nor one of its descendants;
the source's `str(target).startswith(str(workspace))` check instead accepts
the sibling directory `/tmp/ws2` of workspace `/tmp/ws`: resolving
`../ws2/secret` lands outside the workspace, the prefix check passes, and
`write_file` reports success and creates the file outside the sandbox.  The
specification (reject unless the target is the workspace or a descendant) is
clearly the intent; the raw string-prefix comparison is the slip. -/
theorem sandbox_prefix_check_escape :
    ¬ isDescendant ["tmp", "ws"] (resolveJoin ["tmp", "ws"] "../ws2/secret")
    ∧ sandboxOk ["tmp", "ws"] (resolveJoin ["tmp", "ws"] "../ws2/secret") = true
    ∧ (write_file ⟨[], [[], ["tmp"], ["tmp", "ws"]]⟩ ["tmp", "ws"] "../ws2/secret" ['x']).2
        = .ok "Successfully wrote 1 bytes to ../ws2/secret"
    ∧ (write_file ⟨[], [[], ["tmp"], ["tmp", "ws"]]⟩ ["tmp", "ws"] "../ws2/secret" ['x']).1.lookupFile
        (resolveJoin ["tmp", "ws"] "../ws2/secret") = some ['x'] :=
  ⟨by decide, by decide, by decide, by decide⟩

/-- C2: `execute_tool` is total and returns a string in every case: an
unregistered name yields the uniform unknown-tool string, a normal tool
return is passed through, and any fault raised inside the capability is
converted to `Error executing <name>: <faultKind>: <faultMessage>`. -/
theorem execute_tool_spec (reg : Registry) (name : String) (args : Args) (ws : AbsPath) :
    (reg name = none →
      execute_tool reg name args ws = "Error: Unknown tool '" ++ name ++ "'")
    ∧ (∀ fn, reg name = some fn → ∀ s, callKw fn ws args = .ok s →
        execute_tool reg name args ws = s)
    ∧ (∀ fn, reg name = some fn → ∀ k m, callKw fn ws args = .error ⟨k, m⟩ →
        execute_tool reg name args ws =
          "Error executing " ++ name ++ ": " ++ k ++ ": " ++ m) := by
  refine ⟨?_, ?_, ?_⟩
  · intro h
    simp [execute_tool, h]
  · intro fn h s hs
    simp [execute_tool, h, hs]
  · intro fn h k m he
    simp [execute_tool, h, he]

/-- C2 witness: the unknown-tool case at a concrete input. -/
theorem execute_tool_spec_witness :
    execute_tool (fun _ => none) "frobnicate" [] [] = "Error: Unknown tool '" ++ "frobnicate" ++ "'" :=
  (execute_tool_spec (fun _ => none) "frobnicate" [] []).1 rfl

/-- C10: when the model-supplied argument map itself binds `workspace`, the
CPython keyword call raises `TypeError` before any tool body runs — for
every capability and every candidate workspace binding — and `execute_tool`
converts it to the uniform error string, so the sandbox root can never be
rebound through model-supplied arguments. -/
theorem workspace_not_overridable (reg : Registry) (name : String) (fn : ToolFn)
    (args : Args) (ws : AbsPath) (hreg : reg name = some fn)
    (hkey : hasKey args "workspace" = true) :
    (∀ fn' : ToolFn, ∀ ws' : AbsPath,
      callKw fn' ws' args = .error ⟨"TypeError", dupWorkspaceMsg⟩)
    ∧ execute_tool reg name args ws =
        "Error executing " ++ name ++ ": " ++ "TypeError" ++ ": " ++ dupWorkspaceMsg := by
  constructor
  · intro fn' ws'
    simp [callKw, hkey]
  · simp [execute_tool, hreg, callKw, hkey]

/-- C10 witness: a registered tool called with a `workspace` key in its
argument map at a concrete input. -/
theorem workspace_not_overridable_witness :
    execute_tool (fun n => if n = "read_file" then some (fun _ _ => .ok "contents") else none)
      "read_file" [("workspace", .str "/evil")] ["ws"] =
      "Error executing " ++ "read_file" ++ ": " ++ "TypeError" ++ ": " ++ dupWorkspaceMsg :=
  (workspace_not_overridable
    (fun n => if n = "read_file" then some (fun _ _ => .ok "contents") else none)
    "read_file" (fun _ _ => .ok "contents") [("workspace", .str "/evil")] ["ws"]
    rfl (by decide)).2

/-- C8: a command containing a denylisted destructive pattern is blocked
with the fixed message and independently of the subprocess oracle (no
subprocess is consulted); a non-blocked command whose execution exceeds the
timeout yields the timeout error string rather than an exception. -/
theorem run_command_spec (exec : String → Nat → ExecOutcome) (cmd : String) (tout : Nat) :
    (isBlockedCmd cmd = true →
      (∀ exec' : String → Nat → ExecOutcome,
        run_command exec cmd tout = run_command exec' cmd tout)
      ∧ run_command exec cmd tout = blockedCmdMsg)
    ∧ (isBlockedCmd cmd = false → exec cmd tout = .timedOut →
      run_command exec cmd tout =
        "Error: Command timed out after " ++ toString tout ++ "s.") := by
  constructor
  · intro hb
    constructor
    · intro exec'
      simp [run_command, hb]
    · simp [run_command, hb]
  · intro hb ht
    simp [run_command, hb, ht]

/-- C8 witness: the denylisted command `rm -rf /` is blocked, and a 1-second
timeout on a hanging command yields the timeout message. -/
theorem run_command_spec_witness :
    run_command (fun _ _ => .timedOut) "rm -rf /" 60 = blockedCmdMsg
    ∧ run_command (fun _ _ => .timedOut) "sleep 10" 1 =
        "Error: Command timed out after " ++ toString 1 ++ "s." :=
  ⟨((run_command_spec (fun _ _ => .timedOut) "rm -rf /" 60).1 (by decide)).2,
   (run_command_spec (fun _ _ => .timedOut) "sleep 10" 1).2 (by decide) rfl⟩

/-- C3: `Agent.run` terminates for every input (it is a total function of
the iteration budget), and either returns the content of the first provider
response carrying no tool calls — all earlier responses carried some — or,
when every response up to the ceiling carries tool calls, returns the fixed
maximum-iterations message after exactly `maxIterations` provider calls
(`Thinking` entries); the configured default ceiling is 25. -/
theorem agent_run_terminates (env : RunEnv) (maxIterations : Nat) (msgs : List Msg)
    (userInput : String) :
    defaultMaxIterations = 25
    ∧ (((Agent.run env maxIterations msgs userInput).2.2.length = maxIterations ∧
        (∀ resp ∈ (Agent.run env maxIterations msgs userInput).2.2,
          resp.2 ≠ ([] : List ToolCall)) ∧
        (Agent.run env maxIterations msgs userInput).2.1 = maxIterationsMsg)
      ∨ (∃ rs c, (Agent.run env maxIterations msgs userInput).2.2 =
            rs ++ [(c, ([] : List ToolCall))] ∧
          (∀ resp ∈ rs, resp.2 ≠ ([] : List ToolCall)) ∧
          (Agent.run env maxIterations msgs userInput).2.1 = c ∧
          (Agent.run env maxIterations msgs userInput).2.2.length ≤ maxIterations)) :=
  ⟨rfl, runLoop_resps_spec env maxIterations (msgs ++ [userMessage userInput])⟩

/-- C3 witness: a provider that immediately answers with no tool calls ends
the run within the budget. -/
theorem agent_run_terminates_witness :
    (Agent.run ⟨fun _ => ("done", []), fun _ => none, fun _ => none, []⟩ 3
      Agent.init "hi").2.2.length ≤ 3 := by
  rcases agent_run_terminates ⟨fun _ => ("done", []), fun _ => none, fun _ => none, []⟩ 3
      Agent.init "hi" with ⟨_, ⟨hlen, _, _⟩ | ⟨rs, c, _, _, _, hlen⟩⟩
  · omega
  · exact hlen

/-- C9: the conversation starts as exactly the system turn; every run only
appends turns (the prior conversation is a prefix of the new one) and never
appends a system-role turn, so a conversation beginning with exactly one
system turn keeps that shape; and `reset()` restores exactly the original
single system turn after any history. -/
theorem conversation_invariants :
    (Agent.init = [systemMessage] ∧ systemMessage.role = "system")
    ∧ (∀ (env : RunEnv) (maxIterations : Nat) (msgs : List Msg) (userInput : String),
        ∃ suffix, (Agent.run env maxIterations msgs userInput).1 = msgs ++ suffix ∧
          ∀ m ∈ suffix, m.role ≠ "system")
    ∧ (∀ (env : RunEnv) (maxIterations : Nat) (msgs : List Msg) (userInput : String),
        oneSystemHead msgs → oneSystemHead (Agent.run env maxIterations msgs userInput).1)
    ∧ (∀ msgs : List Msg, Agent.reset msgs = [systemMessage]) := by
  have hrun : ∀ (env : RunEnv) (maxIterations : Nat) (msgs : List Msg) (userInput : String),
      ∃ suffix, (Agent.run env maxIterations msgs userInput).1 = msgs ++ suffix ∧
        ∀ m ∈ suffix, m.role ≠ "system" := by
    intro env maxIterations msgs userInput
    obtain ⟨suf, hsuf, hroles⟩ :=
      runLoop_msgs_append env maxIterations (msgs ++ [userMessage userInput])
    refine ⟨[userMessage userInput] ++ suf, ?_, ?_⟩
    · show (runLoop env maxIterations (msgs ++ [userMessage userInput])).1 = _
      rw [hsuf, List.append_assoc]
    · intro m hm
      rcases List.mem_append.mp hm with hm | hm
      · simp only [List.mem_singleton] at hm
        subst hm
        simp [userMessage]
      · rcases hroles m hm with h | h <;> simp [h]
  refine ⟨⟨rfl, rfl⟩, hrun, ?_, fun _ => rfl⟩
  intro env maxIterations msgs userInput hone
  obtain ⟨rest, rfl, hrest⟩ := hone
  obtain ⟨suffix, hsuf, hroles⟩ := hrun env maxIterations (systemMessage :: rest) userInput
  refine ⟨rest ++ suffix, ?_, ?_⟩
  · rw [hsuf]
    simp
  · intro m hm
    rcases List.mem_append.mp hm with hm | hm
    · exact hrest m hm
    · exact hroles m hm

/-- C9 witness: one concrete run starting from the initial conversation
still has exactly one leading system turn. -/
theorem conversation_invariants_witness :
    oneSystemHead (Agent.run ⟨fun _ => ("done", []), fun _ => none, fun _ => none, []⟩ 1
      Agent.init "hi").1 :=
  conversation_invariants.2.2.1 ⟨fun _ => ("done", []), fun _ => none, fun _ => none, []⟩ 1
    Agent.init "hi" ⟨[], rfl, by simp⟩

/-- C4: on an in-sandbox existing file, `edit_file` with `old_string`
occurring exactly once rewrites the file to the splice of `new_string` at
the first occurrence (everything before and after byte-identical), touches
no other file and no directory, and confirms; zero occurrences (that is, no
occurrence at any position) leave the state unchanged with the not-found
error; `N > 1` occurrences leave the state unchanged and report the exact
count `N`. -/
theorem edit_file_spec (fs : FS) (w : AbsPath) (p : String) (oldS newS content : List Char)
    (hdesc : isDescendant w (resolveJoin w p))
    (hfile : fs.lookupFile (resolveJoin w p) = some content) :
    (countOcc oldS content = 0 →
      edit_file fs w p oldS newS = (fs, .ok "Error: old_string not found in file.")
      ∧ (oldS ≠ [] → ∀ i, ¬ occursAt oldS content i))
    ∧ (1 < countOcc oldS content →
      edit_file fs w p oldS newS =
        (fs, .ok ("Error: old_string found " ++ toString (countOcc oldS content) ++
          " times — must be unique. Add more context.")))
    ∧ (countOcc oldS content = 1 →
      ((edit_file fs w p oldS newS).2 = .ok ("Successfully edited " ++ p)
       ∧ (edit_file fs w p oldS newS).1.lookupFile (resolveJoin w p) =
           some (replaceFirst oldS newS content)
       ∧ (∀ t', t' ≠ resolveJoin w p →
           (edit_file fs w p oldS newS).1.lookupFile t' = fs.lookupFile t')
       ∧ (edit_file fs w p oldS newS).1.dirs = fs.dirs
       ∧ (oldS ≠ [] → ∃ i, occursAt oldS content i ∧
            (∀ j < i, ¬ occursAt oldS content j) ∧
            replaceFirst oldS newS content =
              content.take i ++ newS ++ content.drop (i + oldS.length)))) := by
  have hsb := sandboxOk_of_descendant w (resolveJoin w p) hdesc
  have hfile' : lookupA fs.files (resolveJoin w p) = some content := hfile
  have hex : fs.pathExists (resolveJoin w p) = true := by
    simp [FS.pathExists, hfile]
  refine ⟨?_, ?_, ?_⟩
  · intro hc
    constructor
    · simp [edit_file, hsb, hex, hfile, hc]
    · intro hne i
      exact no_occursAt_of_countOcc_eq_zero oldS content hne hc i
  · intro hc
    have h0 : ¬ countOcc oldS content = 0 := by omega
    simp [edit_file, hsb, hex, hfile, h0, hc]
  · intro hc
    have h0 : ¬ countOcc oldS content = 0 := by omega
    have h1 : ¬ countOcc oldS content > 1 := by omega
    refine ⟨?_, ?_, ?_, ?_, ?_⟩
    · simp [edit_file, hsb, hex, hfile, h0, h1]
    · simp [edit_file, hsb, hex, hfile, hfile', h0, h1, FS.lookupFile, lookupA_storeA_self]
    · intro t' ht'
      simp [edit_file, hsb, hex, hfile, hfile', h0, h1, FS.lookupFile,
        lookupA_storeA_ne fs.files (resolveJoin w p) t' _ ht']
    · simp [edit_file, hsb, hex, hfile, h0, h1]
    · intro hne
      exact replaceFirst_spec oldS newS content hne
        (exists_occursAt_of_countOcc_ne_zero oldS content hne h0)

/-- C4 witness: replacing the unique occurrence of `a` in the two-byte file
`ab` succeeds at a concrete input. -/
theorem edit_file_spec_witness :
    (edit_file ⟨[(["ws", "app.py"], "ab".data)], [[], ["ws"]]⟩ ["ws"] "app.py"
      "a".data "X".data).2 = .ok ("Successfully edited " ++ "app.py") :=
  ((edit_file_spec ⟨[(["ws", "app.py"], "ab".data)], [[], ["ws"]]⟩ ["ws"] "app.py"
    "a".data "X".data "ab".data (by decide) (by decide)).2.2 (by decide)).1

/-- A write to an in-sandbox target that is not an existing directory, with
no regular file sitting on its parent chain, stores the content, creates the
missing parent directories, and reports `len(content)`. -/
theorem write_file_success (fs : FS) (w : AbsPath) (p : String) (content : List Char)
    (hdesc : isDescendant w (resolveJoin w p))
    (hnd : fs.isDir (resolveJoin w p) = false)
    (hpar : (lookupA fs.files (resolveJoin w p).dropLast).isSome = false)
    (hanc : ∀ a ∈ ancestors (resolveJoin w p), (lookupA fs.files a).isSome = false) :
    write_file fs w p content =
      ({ files := storeA fs.files (resolveJoin w p) content,
         dirs := fs.dirs ++ (ancestors (resolveJoin w p)).filter
           (fun a => ! fs.dirs.contains a) },
       .ok ("Successfully wrote " ++ toString content.length ++ " bytes to " ++ p)) := by
  have hsb := sandboxOk_of_descendant w (resolveJoin w p) hdesc
  have hany : (ancestors (resolveJoin w p)).any
      (fun a => (lookupA fs.files a).isSome) = false := by
    rw [List.any_eq_false]
    intro a ha
    simp [hanc a ha]
  have hdir1 : (fs.dirs ++ (ancestors (resolveJoin w p)).filter
      (fun a => ! fs.dirs.contains a)).contains (resolveJoin w p) = false := by
    rw [Bool.eq_false_iff]
    intro hcon
    have hmem : resolveJoin w p ∈ fs.dirs ++ (ancestors (resolveJoin w p)).filter
        (fun a => ! fs.dirs.contains a) := List.elem_iff.mp hcon
    rcases List.mem_append.mp hmem with hm | hm
    · rw [FS.isDir, Bool.eq_false_iff] at hnd
      exact hnd (List.elem_iff.mpr hm)
    · exact mem_ancestors_ne _ _ (List.mem_of_mem_filter hm) rfl
  simp [write_file, hsb, hpar, hany, FS.isDir, hdir1]
  constructor
  · intro hm
    rw [FS.isDir, Bool.eq_false_iff] at hnd
    exact hnd (List.elem_iff.mpr hm)
  · intro hm
    exact absurd rfl (mem_ancestors_ne _ _ hm)

/-- C5 counterexample: the claim quantifies over every in-sandbox path, but
writing to `.` — the workspace root itself, an in-sandbox path — raises
`IsADirectoryError` inside `write_file`, so the subsequent read does not
return the content. -/
theorem write_read_roundtrip_counterexample :
    isDescendant ["ws"] (resolveJoin ["ws"] ".")
    ∧ ¬ ((read_file (write_file ⟨[], [[], ["ws"]]⟩ ["ws"] "." "hi".data).1 ["ws"] ".").2
        = .ok (String.mk "hi".data)) :=
  ⟨by decide, by decide⟩

/-- C5 (amended): for every in-sandbox path whose resolved target is not an
existing directory and with no regular file on the target's parent chain,
writing content `c` then reading the same path returns exactly `c`, and
after the write every parent directory of the target exists. -/
theorem write_read_roundtrip (fs : FS) (w : AbsPath) (p : String) (content : List Char)
    (hdesc : isDescendant w (resolveJoin w p))
    (hnd : fs.isDir (resolveJoin w p) = false)
    (hpar : (lookupA fs.files (resolveJoin w p).dropLast).isSome = false)
    (hanc : ∀ a ∈ ancestors (resolveJoin w p), (lookupA fs.files a).isSome = false) :
    (read_file (write_file fs w p content).1 w p).2 = .ok (String.mk content)
    ∧ ∀ a ∈ ancestors (resolveJoin w p), (write_file fs w p content).1.isDir a = true := by
  have hw := write_file_success fs w p content hdesc hnd hpar hanc
  have hsb := sandboxOk_of_descendant w (resolveJoin w p) hdesc
  constructor
  · rw [hw]
    simp [read_file, hsb, FS.pathExists, FS.lookupFile, lookupA_storeA_self]
  · intro a ha
    rw [hw]
    simp only [FS.isDir]
    by_cases hm : a ∈ fs.dirs
    · exact List.elem_iff.mpr (List.mem_append.mpr (Or.inl hm))
    · refine List.elem_iff.mpr (List.mem_append.mpr (Or.inr ?_))
      rw [List.mem_filter]
      refine ⟨ha, ?_⟩
      simpa using hm

/-- C5 witness: the round trip at a concrete in-sandbox regular path. -/
theorem write_read_roundtrip_witness :
    (read_file (write_file ⟨[], [[], ["ws"]]⟩ ["ws"] "f.txt" "hi".data).1 ["ws"] "f.txt").2
      = .ok (String.mk "hi".data) :=
  (write_read_roundtrip ⟨[], [[], ["ws"]]⟩ ["ws"] "f.txt" "hi".data (by decide) (by decide)
    (by decide) (by decide)).1

theorem utf8Bytes_eq_length_of_ascii (content : List Char)
    (h : ∀ ch ∈ content, ch.toNat < 128) : utf8Bytes content = content.length := by
  induction content with
  | nil => rfl
  | cons ch rest ih =>
    have h1 : charUtf8Len ch = 1 := by
      simp [charUtf8Len, h ch (List.mem_cons_self _ _)]
    have ih' := ih (fun c hc => h c (List.mem_cons_of_mem _ hc))
    simp only [utf8Bytes, List.map_cons, List.sum_cons, List.length_cons] at ih' ⊢
    rw [h1, ih']
    omega

/-- C6 counterexample: the success message reports `len(content)` — the
number of characters — not the number of bytes of the UTF-8 encoding the
file stores: writing the one-character content `é` (2 encoded bytes)
reports `1 bytes`. -/
theorem write_file_byte_count_counterexample :
    utf8Bytes ['é'] = 2
    ∧ ¬ ((write_file ⟨[], [[], ["ws"]]⟩ ["ws"] "f.txt" ['é']).2 =
        .ok ("Successfully wrote " ++ toString (utf8Bytes ['é']) ++ " bytes to " ++ "f.txt")) :=
  ⟨by decide, by decide⟩

/-- C6 (amended): the success result of `write_file` reports the number of
characters (code points) of the content, labelled as bytes; this equals the
encoded byte count exactly when the content is ASCII. -/
theorem write_file_reports_char_count (fs : FS) (w : AbsPath) (p : String)
    (content : List Char)
    (hdesc : isDescendant w (resolveJoin w p))
    (hnd : fs.isDir (resolveJoin w p) = false)
    (hpar : (lookupA fs.files (resolveJoin w p).dropLast).isSome = false)
    (hanc : ∀ a ∈ ancestors (resolveJoin w p), (lookupA fs.files a).isSome = false) :
    (write_file fs w p content).2 =
      .ok ("Successfully wrote " ++ toString content.length ++ " bytes to " ++ p)
    ∧ ((∀ ch ∈ content, ch.toNat < 128) → utf8Bytes content = content.length) := by
  constructor
  · rw [write_file_success fs w p content hdesc hnd hpar hanc]
  · exact utf8Bytes_eq_length_of_ascii content

/-- C6 witness: a concrete ASCII write reporting its character count. -/
theorem write_file_reports_char_count_witness :
    (write_file ⟨[], [[], ["ws"]]⟩ ["ws"] "f.txt" "hi".data).2 =
      .ok ("Successfully wrote " ++ toString "hi".data.length ++ " bytes to " ++ "f.txt") :=
  (write_file_reports_char_count ⟨[], [[], ["ws"]]⟩ ["ws"] "f.txt" "hi".data (by decide)
    (by decide) (by decide) (by decide)).1

/-- C7: `search_files` returns at most 50 matching lines — each the
formatted `relpath:lineno: line` of a matching line of a visible traversal
entry — appending the truncation notice exactly when the 50th match is
reached; a pattern the regex engine rejects falls back to the
escaped-literal case-insensitive matcher; entries with a hidden (leading
`.`) path segment never contribute (filtering them out leaves the result
unchanged); and when no visible line matches, the result is exactly the
no-matches sentinel. -/
theorem search_files_spec (compile : String → Option (List Char → Bool)) (pat : String)
    (entries : List SearchEntry) :
    (∃ ms, ((searchGo (mkMatcher compile pat) entries [] = ms ∧ ms.length ≤ 49)
        ∨ (searchGo (mkMatcher compile pat) entries [] = ms ++ [truncNotice] ∧
            ms.length = 50))
      ∧ ∀ m ∈ ms, ∃ e ∈ entries, hiddenRel e.1 = false ∧
          ∃ i l, (splitLinesPy e.2)[i - 1]? = some l ∧ mkMatcher compile pat l = true ∧
            m = fmtMatch e.1 i l)
    ∧ (compile pat = none → ∀ line, mkMatcher compile pat line = litCI pat line)
    ∧ (searchGo (mkMatcher compile pat) (entries.filter (fun e => ! hiddenRel e.1)) [] =
        searchGo (mkMatcher compile pat) entries [])
    ∧ ((∀ e ∈ entries, hiddenRel e.1 = false →
          ∀ l ∈ splitLinesPy e.2, mkMatcher compile pat l = false) →
        search_files compile pat entries = noMatchesMsg) := by
  refine ⟨?_, ?_, searchGo_skips_hidden (mkMatcher compile pat) entries [], ?_⟩
  · obtain ⟨ms, hcase, hmem⟩ := searchGo_spec (mkMatcher compile pat) entries [] (by simp)
    refine ⟨ms, ?_, hmem⟩
    simpa using hcase
  · intro h line
    simp [mkMatcher, h]
  · intro h
    simp [search_files, searchGo_no_match (mkMatcher compile pat) entries [] h]

/-- C7 witness: a pattern absent from the lone visible file yields exactly
the sentinel (with the always-failing regex compiler forcing the literal
fallback). -/
theorem search_files_spec_witness :
    search_files (fun _ => none) "zzz" [(["main.py"], "print(1)".data)] = noMatchesMsg :=
  (search_files_spec (fun _ => none) "zzz" [(["main.py"], "print(1)".data)]).2.2.2 (by decide)

end VicsAgent
